import Mathlib

/-!
A shallow embedding, in Lean 4, of the core of the `client_side_ml`
repository (file `src/frontend/app/screens/HomeScreen.tsx`, the complete
variant of the screen): the feature assembler (`Xy` useMemo), the CART
regression-tree engine (`variance`, `buildCART`, `predictTree`, `fitCART`)
and the orchestration callback `train`.

Modelling decisions:
* JavaScript numbers are embedded as `ℚ` (exact arithmetic).  A JS `NaN`
  produced by reading a non-numeric cell is embedded as `Option.none`;
  the code's `Number.isFinite` test becomes `Option.isSome`.
* The four cyclic datetime features are `Math.sin`/`Math.cos` values,
  which are real-valued.  They are always finite, and no claim depends on
  their numeric values, so the embedding takes the map from a timestamp to
  the four cyclic slots as an explicit parameter `dp`; every theorem is
  proved for an arbitrary `dp`, which subsumes the concrete sin/cos one.
* `Array.prototype.sort` with the ascending comparator returns the unique
  ascending reordering of a list of rationals, embedded as
  `List.insertionSort (· ≤ ·)`.
* `buildCART` partitions rows by index lists (`Li`/`Ri` are strictly
  increasing index lists, then mapped over `X` and `y`); this is embedded
  as the order-preserving `List.filter` partition of `X.zip y`.
* `buildCART`'s recursion is embedded structurally on the remaining depth
  budget `maxDepth - depth` (the code's recursion increases `depth` by 1
  and stops once `depth >= maxDepth`); `buildCART_eq` re-states the
  embedding in the exact shape of the source's recursive definition.
-/

namespace ClientSideML

/-- A cell of the tabular dataset: the value of `row[col]` can be a finite
number, a valid `Date` (carried as its epoch timestamp), an invalid
`Date` (`isNaN(+d)`), a string token, or `null`/absent. -/
inductive Cell where
  | num (q : ℚ)
  | date (ts : ℤ)
  | badDate
  | str (s : String)
  | null
deriving DecidableEq

/-- A parsed row: mapping from column name to cell, embedded as an
association list (`Row` type of the source). -/
def RowT : Type := List (String × Cell)

instance : DecidableEq RowT := by
  unfold RowT
  infer_instance

/-- `row[col]` — a missing key is `undefined`, which every use site treats
like a non-number/non-Date, so it is embedded as `Cell.null`. -/
def RowT.getCell (r : RowT) (c : String) : Cell :=
  match r.find? (fun p => p.1 == c) with
  | some p => p.2
  | none => Cell.null

/-- The `DataFrame` type of the source: column names, parsed rows, the
auto-detected numeric columns, and the detected datetime column. -/
structure DataFrame where
  columns : List String
  rows : List RowT
  numericCols : List String
  datetimeKey : Option String
deriving DecidableEq

/-- The `LAGS` constant of the source: `const LAGS = [1, 2, 3]`. -/
def LAGS : List ℕ := [1, 2, 3]

/-- The `USE_DATETIME_FEATURES` constant of the source (`true`). -/
def USE_DATETIME_FEATURES : Bool := true

/-- `Math.max(0, ...LAGS)` from the `Xy` builder. -/
def maxLag : ℕ := LAGS.foldl max 0

/-- The type of the abstract cyclic-feature map: timestamp ↦ the four
values `(d.sin, d.cos, m.sin, m.cos)` pushed by `makeXAt` (see the header
comment: the concrete map is built from `Math.sin`/`Math.cos`). -/
def DateParts : Type := ℤ → ℚ × ℚ × ℚ × ℚ

/-- The `getNum` helper of the `Xy` builder:
`typeof df.rows[rowIdx]?.[col] === "number" ? … : NaN`, with `NaN`
embedded as `none`.  The index is an integer because `t - l` can be
negative (a negative JS index reads `undefined`). -/
def getNum (df : DataFrame) (i : ℤ) (c : String) : Option ℚ :=
  match (if 0 ≤ i then df.rows.get? i.toNat else none) with
  | some r =>
    match r.getCell c with
    | Cell.num q => some q
    | _ => none
  | none => none

/-- `df.rows[t]?.[datetimeKey]` as a cell (for the cyclic features). -/
def getCellAt (df : DataFrame) (i : ℤ) (c : String) : Cell :=
  match (if 0 ≤ i then df.rows.get? i.toNat else none) with
  | some r => r.getCell c
  | none => Cell.null

/-- The exogenous series of the `Xy` builder:
`allSeries.filter((c) => c !== target)`. -/
def exoCols (df : DataFrame) (target : String) : List String :=
  df.numericCols.filter (fun c => c ≠ target)

/-- The datetime block of `makeXAt`: when the flag is on and a datetime
column was detected, four slots from the cyclic-feature map at the row's
timestamp, falling back to four zeros when the cell at `t` is not a valid
`Date`; otherwise no slots. -/
def cycSlots (dp : DateParts) (df : DataFrame) (t : ℤ) : List (Option ℚ) :=
  if USE_DATETIME_FEATURES then
    match df.datetimeKey with
    | some k =>
      match getCellAt df t k with
      | Cell.date ts =>
        let p := dp ts
        [some p.1, some p.2.1, some p.2.2.1, some p.2.2.2]
      | _ => [some 0, some 0, some 0, some 0]
    | none => []
  else []

/-- The `makeXAt` closure of the `Xy` builder: the feature vector for row
index `t` — current-time exogenous values, then for each lag `l` the
target at `t-l` followed by the exogenous columns at `t-l`, then the
datetime block (`cycSlots`).  Each slot is `none` exactly when the code
computes `NaN` there. -/
def makeXAt (dp : DateParts) (df : DataFrame) (target : String) (t : ℤ) :
    List (Option ℚ) :=
  let exo := exoCols df target
  let cur := exo.map (fun s => getNum df t s)
  let lagged := LAGS.flatMap (fun l =>
    getNum df (t - (l : ℤ)) target :: exo.map (fun s => getNum df (t - (l : ℤ)) s))
  cur ++ lagged ++ cycSlots dp df t

/-- One iteration of the `Xy` assembly loop at row `t`: the pair
`(x, yNext)` is produced unless some slot of `x` is non-finite or the
label `getNum(t + 1, target)` is non-finite (`continue` in the source). -/
def assembleAt (dp : DateParts) (df : DataFrame) (target : String) (t : ℕ) :
    Option (List ℚ × ℚ) :=
  let x := makeXAt dp df target (t : ℤ)
  if x.all Option.isSome then
    match getNum df ((t : ℤ) + 1) target with
    | some l => some (x.reduceOption, l)
    | none => none
  else none

/-- The training pairs built by the `Xy` useMemo:
`for (let t = maxLag; t <= N - 2; t++) … X.push(x); y.push(yNext)` with
`N = df.rows.length`. -/
def XyPairs (dp : DateParts) (df : DataFrame) (target : String) :
    List (List ℚ × ℚ) :=
  (List.range' maxLag (df.rows.length - 1 - maxLag)).filterMap
    (assembleAt dp df target)

/-- Timestamp of a row's datetime cell, when it is a valid `Date`. -/
def rowTime (k : String) (r : RowT) : Option ℤ :=
  match r.getCell k with
  | Cell.date ts => some ts
  | _ => none

/-- Companion definition written from the specification's words, for the
refinement claims about row ordering: "rows are first filtered to those
with a valid (non-absent, parseable) timestamp when a timestamp column
exists, then sorted ascending by timestamp".  It is *not* part of the
source; it is what the spec says the assembler does before assembling. -/
def specRows (df : DataFrame) : List RowT :=
  match df.datetimeKey with
  | some k =>
    List.insertionSort
      (fun a b => (rowTime k a).getD 0 ≤ (rowTime k b).getD 0)
      (df.rows.filter (fun r => (rowTime k r).isSome))
  | none => df.rows

/-- Companion definition written from the specification's words: the
feature/label assembly as the spec describes it, i.e. the same layout but
computed over the filtered, timestamp-sorted row sequence. -/
def XySpec (dp : DateParts) (df : DataFrame) (target : String) :
    List (List ℚ × ℚ) :=
  XyPairs dp { df with rows := specRows df } target

/-- The `variance` function of the source: population variance, `0` on an
empty array. -/
def variance (arr : List ℚ) : ℚ :=
  if arr.length = 0 then 0
  else
    let m := arr.sum / (arr.length : ℚ)
    (arr.map (fun v => (v - m) * (v - m))).sum / (arr.length : ℚ)

/-- The leaf value computed by `buildCART`:
`y.reduce((a, b) => a + b, 0) / Math.max(1, n)`. -/
def mean (arr : List ℚ) : ℚ :=
  arr.sum / ((max 1 arr.length : ℕ) : ℚ)

/-- A node of the trained tree (`CartNode` of the source). -/
inductive CartNode where
  | leaf (value : ℚ) (size : ℕ) (depth : ℕ)
  | split (feature : ℕ) (threshold : ℚ) (left right : CartNode)
      (size : ℕ) (depth : ℕ)
deriving DecidableEq

/-- Whether a node is a leaf. -/
def CartNode.isLeaf : CartNode → Bool
  | CartNode.leaf _ _ _ => true
  | CartNode.split _ _ _ _ _ _ => false

/-- The split test `X[i][f] <= thr` of `buildCART` (and `predictTree`'s
`x[node.feature] <= node.threshold`): reading past the end of the vector
yields `undefined`, and `undefined <= thr` is `false`. -/
def splitLE (f : ℕ) (thr : ℚ) (x : List ℚ) : Bool :=
  match x.get? f with
  | some v => decide (v ≤ thr)
  | none => false

/-- Rows of a node routed left by a candidate (`v <= thr`). -/
def leftOf (D : List (List ℚ × ℚ)) (f : ℕ) (thr : ℚ) : List (List ℚ × ℚ) :=
  D.filter (fun p => splitLE f thr p.1)

/-- Rows of a node routed right by a candidate (`v > thr`). -/
def rightOf (D : List (List ℚ × ℚ)) (f : ℕ) (thr : ℚ) : List (List ℚ × ℚ) :=
  D.filter (fun p => !(splitLE f thr p.1))

/-- The candidate gain computed by `buildCART`:
`parentVar - (L.length / n) * variance(L) - (R.length / n) * variance(R)`. -/
def gainOf (D : List (List ℚ × ℚ)) (n parentVar : ℚ) (f : ℕ) (thr : ℚ) : ℚ :=
  parentVar
    - ((leftOf D f thr).length / n) * variance ((leftOf D f thr).map Prod.snd)
    - ((rightOf D f thr).length / n) * variance ((rightOf D f thr).map Prod.snd)

/-- A candidate is usable when both partitions reach `minLeaf`
(`if (L.length < minLeaf || R.length < minLeaf) continue`). -/
def validAt (D : List (List ℚ × ℚ)) (minLeaf f : ℕ) (thr : ℚ) : Prop :=
  minLeaf ≤ (leftOf D f thr).length ∧ minLeaf ≤ (rightOf D f thr).length

instance (D : List (List ℚ × ℚ)) (minLeaf f : ℕ) (thr : ℚ) :
    Decidable (validAt D minLeaf f thr) := by
  unfold validAt
  infer_instance

/-- The feature's node values, ascending
(`X.map(row => row[f]).filter(Number.isFinite)` then `sort((a,b) => a-b)`;
a row shorter than `f` contributes `undefined`, filtered out). -/
def sortedVals (X : List (List ℚ)) (f : ℕ) : List ℚ :=
  List.insertionSort (· ≤ ·) (X.filterMap (fun row => row.get? f))

/-- Candidate thresholds of `buildCART` for feature `f`: the values at
positions `Math.floor(q * sorted.length / 10)` for `q = 1 .. 9` of the
ascending node values (with multiplicity); the feature is skipped when it
has no finite value. -/
def candidates (X : List (List ℚ)) (f : ℕ) : List ℚ :=
  if (X.filterMap (fun row => row.get? f)).isEmpty then []
  else
    (List.range' 1 9).filterMap
      (fun q => (sortedVals X f).get? (q * (sortedVals X f).length / 10))

/-- Companion definition written from the specification's words (claim on
candidate thresholds): the values at the `10% … 90%` quantile positions of
the feature's *distinct* sorted values, with no duplicate candidate
re-evaluated (deduplicated). -/
def candidatesSpec (X : List (List ℚ)) (f : ℕ) : List ℚ :=
  let ds := List.insertionSort (· ≤ ·) (X.filterMap (fun row => row.get? f)).dedup
  ((List.range' 1 9).filterMap (fun q => ds.get? (q * ds.length / 10))).dedup

/-- The running best split of `buildCART`
(`bestGain/bestFeat/bestThr/bestLeftIdx/bestRightIdx`); `Option Best` is
`none` while `bestFeat` is still `-1` (no update ever happened). -/
structure Best where
  gain : ℚ
  feat : ℕ
  thr : ℚ
  L : List (List ℚ × ℚ)
  R : List (List ℚ × ℚ)
deriving DecidableEq

/-- The running best gain: `0` before any update (`let bestGain = 0`). -/
def gv : Option Best → ℚ
  | none => 0
  | some b => b.gain

/-- One candidate evaluation in `buildCART`'s split search. -/
def stepCand (D : List (List ℚ × ℚ)) (n parentVar : ℚ) (minLeaf f : ℕ)
    (acc : Option Best) (thr : ℚ) : Option Best :=
  let L := leftOf D f thr
  let R := rightOf D f thr
  if L.length < minLeaf ∨ R.length < minLeaf then acc
  else
    let gain := parentVar - ((L.length : ℚ) / n) * variance (L.map Prod.snd)
      - ((R.length : ℚ) / n) * variance (R.map Prod.snd)
    if gv acc < gain then some ⟨gain, f, thr, L, R⟩ else acc

/-- `X[0]?.length ?? 0`. -/
def nFeatOf (X : List (List ℚ)) : ℕ :=
  match X.head? with
  | some r => r.length
  | none => 0

/-- The split search of `buildCART`: the double loop over features and
their candidate thresholds, keeping the first strict improvement of the
running best gain. -/
def bestSplitSearch (X : List (List ℚ)) (y : List ℚ) (minLeaf : ℕ) :
    Option Best :=
  let D := X.zip y
  let n : ℚ := (y.length : ℚ)
  let parentVar := variance y
  (List.range (nFeatOf X)).foldl
    (fun acc f => (candidates X f).foldl (stepCand D n parentVar minLeaf f) acc)
    none

/-- `1e-12`, the gain floor of `buildCART`. -/
def eps : ℚ := 1 / 1000000000000

/-- Recursion core of `buildCART`, structural on the remaining depth
budget `maxDepth - depth` (`rem = 0` iff `depth >= maxDepth`; both
stopping branches of the source build the same leaf). -/
def buildCARTGo : ℕ → List (List ℚ) → List ℚ → ℕ → ℕ → CartNode
  | 0, _X, y, depth, _minLeaf => CartNode.leaf (mean y) y.length depth
  | rem + 1, X, y, depth, minLeaf =>
    if y.length ≤ minLeaf then CartNode.leaf (mean y) y.length depth
    else
      match bestSplitSearch X y minLeaf with
      | none => CartNode.leaf (mean y) y.length depth
      | some b =>
        if b.gain ≤ eps then CartNode.leaf (mean y) y.length depth
        else
          CartNode.split b.feat b.thr
            (buildCARTGo rem (b.L.map Prod.fst) (b.L.map Prod.snd)
              (depth + 1) minLeaf)
            (buildCARTGo rem (b.R.map Prod.fst) (b.R.map Prod.snd)
              (depth + 1) minLeaf)
            y.length depth

/-- The `buildCART` function of the source. -/
def buildCART (X : List (List ℚ)) (y : List ℚ)
    (depth maxDepth minLeaf : ℕ) : CartNode :=
  buildCARTGo (maxDepth - depth) X y depth minLeaf

/-- The `predictTree` function of the source: go left when
`x[node.feature] <= node.threshold` (false for an out-of-range index,
since `undefined <= t` is `false`), else right; a leaf returns its value. -/
def predictTree : CartNode → List ℚ → ℚ
  | CartNode.leaf v _ _, _ => v
  | CartNode.split f thr l r _ _, x =>
    if splitLE f thr x then predictTree l x else predictTree r x

/-- The `Model` type of the source (`predictBatch` closure embedded as
`Model.predictBatch` below). -/
structure Model where
  nFeatures : ℕ
  root : CartNode
deriving DecidableEq

/-- The `fitCART` function of the source: `buildCART` with its default
`depth = 0`, `maxDepth = 4`, `minLeaf = 8`. -/
def fitCART (X : List (List ℚ)) (y : List ℚ) : Model :=
  { nFeatures := nFeatOf X, root := buildCART X y 0 4 8 }

/-- The model's `predictBatch` closure: `XX.map(r => predictTree(root, r))`. -/
def Model.predictBatch (m : Model) (XX : List (List ℚ)) : List ℚ :=
  XX.map (predictTree m.root)

/-- The orchestrator state owned by the screen (`model`, `prediction`,
`status` hooks). -/
structure OrchState where
  model : Option Model
  prediction : Option ℚ
  status : String
deriving DecidableEq

/-- The `train` useCallback of the source: refuse without data/target;
refuse (status only) when fewer than 20 assembled examples; otherwise fit
a CART on the assembled pairs and replace the model. -/
def train (dp : DateParts) (df : Option DataFrame) (target : Option String)
    (st : OrchState) : OrchState :=
  match df, target with
  | some d, some tg =>
    let pairs := XyPairs dp d tg
    if pairs.length < 20 then
      { st with status := "Not enough rows to train (need >= 20 after cleaning)." }
    else
      let m := fitCART (pairs.map Prod.fst) (pairs.map Prod.snd)
      { model := some m, prediction := none,
        status := "Trained CART." }
  | _, _ => { st with status := "Load data and choose a target first." }

/-- All leaf values of a tree. -/
def leafValues : CartNode → List ℚ
  | CartNode.leaf v _ _ => [v]
  | CartNode.split _ _ l r _ _ => leafValues l ++ leafValues r

/-- Leaf-mean invariant: relative to the node's training subset `D`, every
leaf holds the exact arithmetic mean of the labels of the rows that reach
it, where children re-partition `D` by the split's feature/threshold. -/
inductive LeafMeans : CartNode → List (List ℚ × ℚ) → Prop where
  | leaf (v s d : _) (D : List (List ℚ × ℚ)) :
      D ≠ [] → v = (D.map Prod.snd).sum / (D.length : ℚ) →
      LeafMeans (CartNode.leaf v s d) D
  | split (f : ℕ) (thr : ℚ) (l r : CartNode) (s d : ℕ)
      (D : List (List ℚ × ℚ)) :
      LeafMeans l (leftOf D f thr) →
      LeafMeans r (rightOf D f thr) →
      LeafMeans (CartNode.split f thr l r s d) D

/-- Structural training invariant: every split's left/right subtrees are
built from exactly the `<=`/`>` partitions of the node's rows, both
partitions have at least `minLeaf` rows, every node's `size` field is the
number of rows that reached it, and a child's `depth` field is its
parent's plus one. -/
inductive WellBuilt (minLeaf : ℕ) : CartNode → List (List ℚ × ℚ) → ℕ → Prop where
  | leaf (v : ℚ) (D : List (List ℚ × ℚ)) (depth : ℕ) :
      WellBuilt minLeaf (CartNode.leaf v D.length depth) D depth
  | split (f : ℕ) (thr : ℚ) (l r : CartNode) (D : List (List ℚ × ℚ))
      (depth : ℕ) :
      minLeaf ≤ (leftOf D f thr).length →
      minLeaf ≤ (rightOf D f thr).length →
      WellBuilt minLeaf l (leftOf D f thr) (depth + 1) →
      WellBuilt minLeaf r (rightOf D f thr) (depth + 1) →
      WellBuilt minLeaf (CartNode.split f thr l r D.length depth) D depth

/-! ### Concrete data used to instantiate theorems -/

/-- A concrete cyclic-feature map (all four slots zero) used to
instantiate theorems at concrete inputs. -/
def dp0 : DateParts := fun _ => (0, 0, 0, 0)

/-- A row with a datetime cell (valid timestamp or null) and one numeric
column `a`. -/
def mkRowDT (ts : Option ℤ) (a : ℚ) : RowT :=
  [("datetime", match ts with
    | some t => Cell.date t
    | none => Cell.null), ("a", Cell.num a)]

/-- Six fully-populated rows whose timestamps are in strictly descending
order (the dataset is not sorted by time). -/
def dfC1 : DataFrame :=
  { columns := ["datetime", "a"]
  , rows := [mkRowDT (some 6) 1, mkRowDT (some 5) 2, mkRowDT (some 4) 3,
             mkRowDT (some 3) 4, mkRowDT (some 2) 5, mkRowDT (some 1) 6]
  , numericCols := ["a"]
  , datetimeKey := some "datetime" }

/-- Seven rows in ascending time order except that the third row's
timestamp is absent (null datetime cell, numeric value still present). -/
def dfC6 : DataFrame :=
  { columns := ["datetime", "a"]
  , rows := [mkRowDT (some 1) 1, mkRowDT (some 2) 2, mkRowDT none 3,
             mkRowDT (some 4) 4, mkRowDT (some 5) 5, mkRowDT (some 6) 6,
             mkRowDT (some 7) 7]
  , numericCols := ["a"]
  , datetimeKey := some "datetime" }

/-- A row with a single numeric column `a`. -/
def mkRowA (a : ℚ) : RowT := [("a", Cell.num a)]

/-- 23 rows, one numeric column, no datetime: exactly 19 training
examples survive assembly (`t = 3 .. 21`). -/
def df19 : DataFrame :=
  { columns := ["a"], rows := (List.range 23).map (fun i => mkRowA i)
  , numericCols := ["a"], datetimeKey := none }

/-- 24 rows, one numeric column, no datetime: exactly 20 training
examples survive assembly. -/
def df20 : DataFrame :=
  { columns := ["a"], rows := (List.range 24).map (fun i => mkRowA i)
  , numericCols := ["a"], datetimeKey := none }

/-- 20 single-feature training rows: ten `[0]` then ten `[10]`. -/
def X3 : List (List ℚ) := List.replicate 10 [0] ++ List.replicate 10 [10]

/-- Labels equal to the single feature of `X3`. -/
def y3 : List ℚ := List.replicate 10 0 ++ List.replicate 10 10

/-- The best split found on `(X3, y3)`: feature 0, threshold 0, gain 25. -/
def b3 : Best :=
  ⟨25, 0, 0, List.replicate 10 ([0], 0), List.replicate 10 ([10], 10)⟩

/-- Eleven single-feature rows: ten `[0]` and one `[1]` — the multiplicity
quantiles of the feature are all `0`, while its distinct values are
`{0, 1}`. -/
def X2 : List (List ℚ) := List.replicate 10 [0] ++ [[1]]

/-- An orchestrator state that already holds a model. -/
def st0 : OrchState :=
  { model := some { nFeatures := 3, root := CartNode.leaf 7 1 0 }
  , prediction := none, status := "" }

/-! ### Basic facts about the embedded definitions -/

theorem zip_map_fst_snd {α β : Type} (l : List (α × β)) :
    (l.map Prod.fst).zip (l.map Prod.snd) = l := by
  have h := List.zip_unzip l
  rwa [List.unzip_eq_map] at h

theorem length_zip_eq {α β : Type} {X : List α} {y : List β}
    (h : X.length = y.length) : (X.zip y).length = y.length := by
  rw [List.length_zip, h, min_self]

theorem map_snd_zip_eq {α β : Type} {X : List α} {y : List β}
    (h : X.length = y.length) : (X.zip y).map Prod.snd = y :=
  List.map_snd_zip X y (le_of_eq h.symm)

theorem zip_ne_nil {α β : Type} {X : List α} {y : List β}
    (h : X.length = y.length) (hy : y ≠ []) : X.zip y ≠ [] := by
  intro hz
  apply hy
  have := length_zip_eq h
  rw [hz] at this
  simpa [eq_comm] using List.length_eq_zero.mp this.symm

theorem sum_of_const {y : List ℚ} {c : ℚ} (h : ∀ v ∈ y, v = c) :
    y.sum = (y.length : ℚ) * c := by
  induction y with
  | nil => simp
  | cons a l ih =>
    have ha : a = c := h a (List.mem_cons_self a l)
    have hl : ∀ v ∈ l, v = c := fun v hv => h v (List.mem_cons_of_mem a hv)
    simp [ha, ih hl]
    ring

theorem mean_of_ne_nil {y : List ℚ} (hy : y ≠ []) :
    mean y = y.sum / (y.length : ℚ) := by
  have h1 : 0 < y.length := List.length_pos.mpr hy
  unfold mean
  congr 2
  omega

theorem mean_of_const {y : List ℚ} {c : ℚ} (hy : y ≠ []) (h : ∀ v ∈ y, v = c) :
    mean y = c := by
  have h1 : 0 < y.length := List.length_pos.mpr hy
  have hn : (y.length : ℚ) ≠ 0 := by
    exact_mod_cast Nat.pos_iff_ne_zero.mp h1
  rw [mean_of_ne_nil hy, sum_of_const h, mul_comm, mul_div_assoc, div_self hn,
    mul_one]

theorem variance_nil : variance ([] : List ℚ) = 0 := by
  simp [variance]

theorem variance_of_const {arr : List ℚ} {c : ℚ} (h : ∀ v ∈ arr, v = c) :
    variance arr = 0 := by
  rcases eq_or_ne arr [] with rfl | hne
  · exact variance_nil
  · have h1 : 0 < arr.length := List.length_pos.mpr hne
    have hn : (arr.length : ℚ) ≠ 0 := by
      exact_mod_cast Nat.pos_iff_ne_zero.mp h1
    have hm : arr.sum / (arr.length : ℚ) = c := by
      rw [sum_of_const h, mul_comm, mul_div_assoc, div_self hn, mul_one]
    have hv : variance arr =
        (arr.map (fun v => (v - arr.sum / (arr.length : ℚ)) *
          (v - arr.sum / (arr.length : ℚ)))).sum / (arr.length : ℚ) := by
      unfold variance
      rw [if_neg (by omega)]
    rw [hv, hm]
    have hz : (arr.map (fun v => (v - c) * (v - c))).sum = 0 := by
      apply List.sum_eq_zero
      intro x hx
      rcases List.mem_map.mp hx with ⟨v, hv, rfl⟩
      rw [h v hv]
      ring
    rw [hz, zero_div]

/-- The `buildCART` recursion restated in the exact shape of the source:
stop (leaf with the label mean) when `n <= minLeaf || depth >= maxDepth`,
otherwise run the split search; stop when it found nothing or its best
gain is at most `1e-12`; otherwise split and recurse on the two partitions
at `depth + 1`. -/
theorem buildCART_eq (X : List (List ℚ)) (y : List ℚ)
    (depth maxDepth minLeaf : ℕ) :
    buildCART X y depth maxDepth minLeaf =
      if y.length ≤ minLeaf ∨ maxDepth ≤ depth then
        CartNode.leaf (mean y) y.length depth
      else
        match bestSplitSearch X y minLeaf with
        | none => CartNode.leaf (mean y) y.length depth
        | some b =>
          if b.gain ≤ eps then CartNode.leaf (mean y) y.length depth
          else
            CartNode.split b.feat b.thr
              (buildCART (b.L.map Prod.fst) (b.L.map Prod.snd)
                (depth + 1) maxDepth minLeaf)
              (buildCART (b.R.map Prod.fst) (b.R.map Prod.snd)
                (depth + 1) maxDepth minLeaf)
              y.length depth := by
  unfold buildCART
  rcases h : maxDepth - depth with _ | rem
  · have hd : maxDepth ≤ depth := by omega
    simp [buildCARTGo, hd]
  · have hd : ¬ maxDepth ≤ depth := by omega
    have h2 : maxDepth - (depth + 1) = rem := by omega
    rw [h2]
    by_cases hle : y.length ≤ minLeaf
    · simp [buildCARTGo, hle, hd]
    · simp only [buildCARTGo, hle, hd, or_self, if_false, or_false]

/-! ### The split search: fold invariants -/

theorem stepCand_invalid {D : List (List ℚ × ℚ)} {n parentVar : ℚ}
    {minLeaf f : ℕ} {acc : Option Best} {thr : ℚ}
    (h : ¬ validAt D minLeaf f thr) :
    stepCand D n parentVar minLeaf f acc thr = acc := by
  have hc : (leftOf D f thr).length < minLeaf ∨
      (rightOf D f thr).length < minLeaf := by
    unfold validAt at h
    omega
  simp only [stepCand]
  rw [if_pos hc]

theorem stepCand_valid_le {D : List (List ℚ × ℚ)} {n parentVar : ℚ}
    {minLeaf f : ℕ} {acc : Option Best} {thr : ℚ}
    (hv : validAt D minLeaf f thr)
    (hle : gainOf D n parentVar f thr ≤ gv acc) :
    stepCand D n parentVar minLeaf f acc thr = acc := by
  obtain ⟨h1, h2⟩ := hv
  simp only [stepCand]
  rw [if_neg (by omega), if_neg]
  simpa [gainOf] using not_lt.mpr hle

theorem stepCand_valid_gt {D : List (List ℚ × ℚ)} {n parentVar : ℚ}
    {minLeaf f : ℕ} {acc : Option Best} {thr : ℚ}
    (hv : validAt D minLeaf f thr)
    (hgt : gv acc < gainOf D n parentVar f thr) :
    stepCand D n parentVar minLeaf f acc thr =
      some ⟨gainOf D n parentVar f thr, f, thr, leftOf D f thr, rightOf D f thr⟩ := by
  obtain ⟨h1, h2⟩ := hv
  simp only [stepCand]
  rw [if_neg (by omega), if_pos (by simpa [gainOf] using hgt)]
  simp [gainOf]

theorem foldCand_spec (D : List (List ℚ × ℚ)) (n parentVar : ℚ)
    (minLeaf f : ℕ) :
    ∀ (cs : List ℚ), cs.Sorted (· ≤ ·) → ∀ (acc : Option Best),
      gv acc ≤ gv (cs.foldl (stepCand D n parentVar minLeaf f) acc) ∧
      (∀ thr ∈ cs, validAt D minLeaf f thr →
        gainOf D n parentVar f thr ≤
          gv (cs.foldl (stepCand D n parentVar minLeaf f) acc)) ∧
      (cs.foldl (stepCand D n parentVar minLeaf f) acc = acc ∨
        ∃ b : Best,
          cs.foldl (stepCand D n parentVar minLeaf f) acc = some b ∧
          b.feat = f ∧ b.thr ∈ cs ∧ validAt D minLeaf f b.thr ∧
          b.gain = gainOf D n parentVar f b.thr ∧
          b.L = leftOf D f b.thr ∧ b.R = rightOf D f b.thr ∧
          gv acc < b.gain ∧
          ∀ thr ∈ cs, validAt D minLeaf f thr →
            gainOf D n parentVar f thr = b.gain → b.thr ≤ thr) := by
  intro cs
  induction cs with
  | nil =>
    intro _ acc
    exact ⟨le_refl _, by simp, Or.inl rfl⟩
  | cons thr cs ih =>
    intro hs acc
    rw [List.sorted_cons] at hs
    obtain ⟨hhead, htail⟩ := hs
    rw [List.foldl_cons]
    by_cases hv : validAt D minLeaf f thr
    · by_cases hg : gv acc < gainOf D n parentVar f thr
      · rw [stepCand_valid_gt hv hg]
        obtain ⟨ih1, ih2, ih3⟩ := ih htail
          (some ⟨gainOf D n parentVar f thr, f, thr, leftOf D f thr, rightOf D f thr⟩)
        refine ⟨le_trans (le_of_lt hg) ih1, ?_, ?_⟩
        · intro t ht hvt
          rcases List.mem_cons.mp ht with rfl | htc
          · exact ih1
          · exact ih2 t htc hvt
        · rcases ih3 with heq | ⟨b2, hb2, hf2, ht2, hv2, hgain2, hL2, hR2, hlt2, hmin2⟩
          · refine Or.inr ⟨_, heq, rfl, List.mem_cons_self _ _, hv, rfl, rfl, rfl, hg, ?_⟩
            intro t ht hvt hgain
            rcases List.mem_cons.mp ht with rfl | htc
            · exact le_refl _
            · exact hhead t htc
          · refine Or.inr ⟨b2, hb2, hf2, List.mem_cons_of_mem _ ht2, hv2, hgain2,
              hL2, hR2, lt_trans hg hlt2, ?_⟩
            intro t ht hvt hgaint
            rcases List.mem_cons.mp ht with rfl | htc
            · exfalso
              rw [hgaint] at hlt2
              exact lt_irrefl _ hlt2
            · exact hmin2 t htc hvt hgaint
      · rw [stepCand_valid_le hv (not_lt.mp hg)]
        obtain ⟨ih1, ih2, ih3⟩ := ih htail acc
        refine ⟨ih1, ?_, ?_⟩
        · intro t ht hvt
          rcases List.mem_cons.mp ht with rfl | htc
          · exact le_trans (not_lt.mp hg) ih1
          · exact ih2 t htc hvt
        · rcases ih3 with heq | ⟨b2, hb2, hf2, ht2, hv2, hgain2, hL2, hR2, hlt2, hmin2⟩
          · exact Or.inl heq
          · refine Or.inr ⟨b2, hb2, hf2, List.mem_cons_of_mem _ ht2, hv2, hgain2,
              hL2, hR2, hlt2, ?_⟩
            intro t ht hvt hgaint
            rcases List.mem_cons.mp ht with rfl | htc
            · exfalso
              have h1 : gainOf D n parentVar f t ≤ gv acc := not_lt.mp hg
              rw [hgaint] at h1
              exact absurd hlt2 (not_lt.mpr h1)
            · exact hmin2 t htc hvt hgaint
    · rw [stepCand_invalid hv]
      obtain ⟨ih1, ih2, ih3⟩ := ih htail acc
      refine ⟨ih1, ?_, ?_⟩
      · intro t ht hvt
        rcases List.mem_cons.mp ht with rfl | htc
        · exact absurd hvt hv
        · exact ih2 t htc hvt
      · rcases ih3 with heq | ⟨b2, hb2, hf2, ht2, hv2, hgain2, hL2, hR2, hlt2, hmin2⟩
        · exact Or.inl heq
        · refine Or.inr ⟨b2, hb2, hf2, List.mem_cons_of_mem _ ht2, hv2, hgain2,
            hL2, hR2, hlt2, ?_⟩
          intro t ht hvt hgaint
          rcases List.mem_cons.mp ht with rfl | htc
          · exact absurd hvt hv
          · exact hmin2 t htc hvt hgaint

theorem get?_mono_of_sorted {s : List ℚ} (hs : s.Sorted (· ≤ ·)) {i j : ℕ}
    (hij : i ≤ j) {v w : ℚ} (hv : s.get? i = some v) (hw : s.get? j = some w) :
    v ≤ w := by
  rcases List.get?_eq_some.mp hv with ⟨hi, rfl⟩
  rcases List.get?_eq_some.mp hw with ⟨hj, rfl⟩
  rcases Nat.lt_or_ge i j with hlt | hge
  · exact List.pairwise_iff_get.mp hs ⟨i, hi⟩ ⟨j, hj⟩ hlt
  · have hij2 : i = j := le_antisymm hij hge
    subst hij2
    exact le_of_eq (by congr)

theorem sorted_filterMap_get {s : List ℚ} (hs : s.Sorted (· ≤ ·)) :
    ∀ (idxs : List ℕ), idxs.Pairwise (· ≤ ·) →
      (idxs.filterMap (fun i => s.get? i)).Sorted (· ≤ ·) := by
  intro idxs
  induction idxs with
  | nil =>
    intro _
    exact List.sorted_nil
  | cons i rest ih =>
    intro hp
    rw [List.pairwise_cons] at hp
    obtain ⟨hhead, htail⟩ := hp
    cases hgi : s.get? i with
    | none => simpa only [List.filterMap_cons, hgi] using ih htail
    | some v =>
      simp only [List.filterMap_cons, hgi]
      rw [List.sorted_cons]
      refine ⟨?_, ih htail⟩
      intro w hw
      rcases List.mem_filterMap.mp hw with ⟨j, hj, hgj⟩
      exact get?_mono_of_sorted hs (hhead j hj) hgi hgj

theorem candidates_sorted (X : List (List ℚ)) (f : ℕ) :
    (candidates X f).Sorted (· ≤ ·) := by
  unfold candidates
  split
  · exact List.sorted_nil
  · have hs : (sortedVals X f).Sorted (· ≤ ·) := List.sorted_insertionSort _ _
    have hmap : (List.range' 1 9).filterMap
        (fun q => (sortedVals X f).get? (q * (sortedVals X f).length / 10)) =
        ((List.range' 1 9).map
          (fun q => q * (sortedVals X f).length / 10)).filterMap
          (fun i => (sortedVals X f).get? i) := by
      rw [List.filterMap_map]
      rfl
    rw [hmap]
    apply sorted_filterMap_get hs
    apply List.Pairwise.map _ ?_ (List.pairwise_lt_range' 1 9)
    intro a b hab
    exact Nat.div_le_div_right (Nat.mul_le_mul_right _ (le_of_lt hab))

theorem foldFeat_spec (X : List (List ℚ)) (D : List (List ℚ × ℚ))
    (n parentVar : ℚ) (minLeaf : ℕ) :
    ∀ (fs : List ℕ), fs.Pairwise (· < ·) → ∀ (acc : Option Best),
      gv acc ≤ gv (fs.foldl
        (fun a f => (candidates X f).foldl (stepCand D n parentVar minLeaf f) a)
        acc) ∧
      (∀ f ∈ fs, ∀ thr ∈ candidates X f, validAt D minLeaf f thr →
        gainOf D n parentVar f thr ≤ gv (fs.foldl
          (fun a f => (candidates X f).foldl (stepCand D n parentVar minLeaf f) a)
          acc)) ∧
      (fs.foldl
          (fun a f => (candidates X f).foldl (stepCand D n parentVar minLeaf f) a)
          acc = acc ∨
        ∃ b : Best,
          fs.foldl
            (fun a f => (candidates X f).foldl (stepCand D n parentVar minLeaf f) a)
            acc = some b ∧
          b.feat ∈ fs ∧ b.thr ∈ candidates X b.feat ∧
          validAt D minLeaf b.feat b.thr ∧
          b.gain = gainOf D n parentVar b.feat b.thr ∧
          b.L = leftOf D b.feat b.thr ∧ b.R = rightOf D b.feat b.thr ∧
          gv acc < b.gain ∧
          ∀ f ∈ fs, ∀ thr ∈ candidates X f, validAt D minLeaf f thr →
            gainOf D n parentVar f thr = b.gain →
            b.feat < f ∨ (b.feat = f ∧ b.thr ≤ thr)) := by
  intro fs
  induction fs with
  | nil =>
    intro _ acc
    exact ⟨le_refl _, by simp, Or.inl rfl⟩
  | cons f fs ih =>
    intro hp acc
    rw [List.pairwise_cons] at hp
    obtain ⟨hhead, htail⟩ := hp
    rw [List.foldl_cons]
    obtain ⟨c1, c2, c3⟩ :=
      foldCand_spec D n parentVar minLeaf f (candidates X f)
        (candidates_sorted X f) acc
    obtain ⟨o1, o2, o3⟩ := ih htail
      ((candidates X f).foldl (stepCand D n parentVar minLeaf f) acc)
    refine ⟨le_trans c1 o1, ?_, ?_⟩
    · intro f' hf' thr hthr hvt
      rcases List.mem_cons.mp hf' with rfl | hfc
      · exact le_trans (c2 thr hthr hvt) o1
      · exact o2 f' hfc thr hthr hvt
    · rcases o3 with heq | ⟨b2, hb2, hf2, ht2, hv2, hgain2, hL2, hR2, hlt2, hmin2⟩
      · rcases c3 with ceq | ⟨b1, hb1, hf1, ht1, hv1, hgain1, hL1, hR1, hlt1, hmin1⟩
        · exact Or.inl (heq.trans ceq)
        · refine Or.inr ⟨b1, heq.trans hb1, ?_, ?_, ?_, ?_, ?_, ?_, hlt1, ?_⟩
          · rw [hf1]; exact List.mem_cons_self _ _
          · rw [hf1]; exact ht1
          · rw [hf1]; exact hv1
          · rw [hf1]; exact hgain1
          · rw [hf1]; exact hL1
          · rw [hf1]; exact hR1
          · intro f' hf' thr hthr hvt hgaint
            rcases List.mem_cons.mp hf' with rfl | hfc
            · exact Or.inr ⟨hf1, hmin1 thr hthr hvt hgaint⟩
            · exact Or.inl (by rw [hf1]; exact hhead f' hfc)
      · refine Or.inr ⟨b2, hb2, List.mem_cons_of_mem _ hf2, ht2, hv2, hgain2,
          hL2, hR2, lt_of_le_of_lt c1 hlt2, ?_⟩
        intro f' hf' thr hthr hvt hgaint
        rcases List.mem_cons.mp hf' with rfl | hfc
        · exfalso
          have h1 := c2 thr hthr hvt
          rw [hgaint] at h1
          exact absurd hlt2 (not_lt.mpr h1)
        · exact hmin2 f' hfc thr hthr hvt hgaint

theorem bestSplitSearch_def (X : List (List ℚ)) (y : List ℚ) (minLeaf : ℕ) :
    bestSplitSearch X y minLeaf =
      (List.range (nFeatOf X)).foldl
        (fun a f => (candidates X f).foldl
          (stepCand (X.zip y) (y.length : ℚ) (variance y) minLeaf f) a)
        none := rfl

theorem bestSplitSearch_none {X : List (List ℚ)} {y : List ℚ} {minLeaf : ℕ}
    (h : bestSplitSearch X y minLeaf = none) :
    ∀ f, f < nFeatOf X → ∀ thr ∈ candidates X f,
      validAt (X.zip y) minLeaf f thr →
      gainOf (X.zip y) (y.length : ℚ) (variance y) f thr ≤ 0 := by
  obtain ⟨_, h2, _⟩ :=
    foldFeat_spec X (X.zip y) (y.length : ℚ) (variance y) minLeaf
      (List.range (nFeatOf X)) (List.pairwise_lt_range _) none
  rw [← bestSplitSearch_def, h] at h2
  intro f hf thr hthr hvt
  exact h2 f (List.mem_range.mpr hf) thr hthr hvt

theorem bestSplitSearch_some {X : List (List ℚ)} {y : List ℚ} {minLeaf : ℕ}
    {b : Best} (h : bestSplitSearch X y minLeaf = some b) :
    b.feat < nFeatOf X ∧ b.thr ∈ candidates X b.feat ∧
    validAt (X.zip y) minLeaf b.feat b.thr ∧
    b.gain = gainOf (X.zip y) (y.length : ℚ) (variance y) b.feat b.thr ∧
    b.L = leftOf (X.zip y) b.feat b.thr ∧
    b.R = rightOf (X.zip y) b.feat b.thr ∧
    0 < b.gain ∧
    (∀ f, f < nFeatOf X → ∀ thr ∈ candidates X f,
      validAt (X.zip y) minLeaf f thr →
      gainOf (X.zip y) (y.length : ℚ) (variance y) f thr ≤ b.gain) ∧
    (∀ f, f < nFeatOf X → ∀ thr ∈ candidates X f,
      validAt (X.zip y) minLeaf f thr →
      gainOf (X.zip y) (y.length : ℚ) (variance y) f thr = b.gain →
      b.feat < f ∨ (b.feat = f ∧ b.thr ≤ thr)) := by
  obtain ⟨h1, h2, h3⟩ :=
    foldFeat_spec X (X.zip y) (y.length : ℚ) (variance y) minLeaf
      (List.range (nFeatOf X)) (List.pairwise_lt_range _) none
  rw [← bestSplitSearch_def, h] at h1 h2 h3
  rcases h3 with heq | ⟨b2, hb2, hf2, ht2, hv2, hgain2, hL2, hR2, hlt2, hmin2⟩
  · exact absurd heq (by simp)
  · obtain rfl : b2 = b := by
      injection hb2.symm
    refine ⟨List.mem_range.mp hf2, ht2, hv2, hgain2, hL2, hR2, hlt2, ?_, ?_⟩
    · intro f hf thr hthr hvt
      exact h2 f (List.mem_range.mpr hf) thr hthr hvt
    · intro f hf thr hthr hvt hg
      exact hmin2 f (List.mem_range.mpr hf) thr hthr hvt hg

/-! ### The training recursion invariants -/

theorem leaf_invariant {X : List (List ℚ)} {y : List ℚ} {depth minLeaf : ℕ}
    (hlen : X.length = y.length) (hy : y ≠ []) :
    LeafMeans (CartNode.leaf (mean y) y.length depth) (X.zip y) ∧
    WellBuilt minLeaf (CartNode.leaf (mean y) y.length depth) (X.zip y) depth := by
  constructor
  · refine LeafMeans.leaf _ _ _ _ (zip_ne_nil hlen hy) ?_
    rw [map_snd_zip_eq hlen, length_zip_eq hlen]
    exact mean_of_ne_nil hy
  · have hL : y.length = (X.zip y).length := (length_zip_eq hlen).symm
    rw [hL]
    exact WellBuilt.leaf _ _ _

theorem gain_zero_of_empty_side {X : List (List ℚ)} {y : List ℚ} {f : ℕ}
    {thr : ℚ} (hlen : X.length = y.length) (hy : y ≠ [])
    (h : leftOf (X.zip y) f thr = [] ∨ rightOf (X.zip y) f thr = []) :
    gainOf (X.zip y) (y.length : ℚ) (variance y) f thr = 0 := by
  have hn : ((y.length : ℚ)) ≠ 0 := by
    have h1 : 0 < y.length := List.length_pos.mpr hy
    exact_mod_cast Nat.pos_iff_ne_zero.mp h1
  rcases h with hL | hR
  · have hfull : rightOf (X.zip y) f thr = X.zip y := by
      unfold leftOf at hL
      unfold rightOf
      rw [List.filter_eq_self]
      intro a ha
      have := List.filter_eq_nil.mp hL a ha
      simpa using this
    unfold gainOf
    rw [hL, hfull, map_snd_zip_eq hlen, length_zip_eq hlen]
    simp [div_self hn]
  · have hfull : leftOf (X.zip y) f thr = X.zip y := by
      unfold rightOf at hR
      unfold leftOf
      rw [List.filter_eq_self]
      intro a ha
      have := List.filter_eq_nil.mp hR a ha
      simpa using this
    unfold gainOf
    rw [hR, hfull, map_snd_zip_eq hlen, length_zip_eq hlen]
    simp [div_self hn]

theorem eps_pos : 0 < eps := by norm_num [eps]

theorem partition_nonempty {X : List (List ℚ)} {y : List ℚ} {minLeaf : ℕ}
    {b : Best} (hlen : X.length = y.length) (hy : y ≠ [])
    (h : bestSplitSearch X y minLeaf = some b) (hgt : eps < b.gain) :
    b.L ≠ [] ∧ b.R ≠ [] := by
  obtain ⟨_, _, _, hgain, hL, hR, _, _, _⟩ := bestSplitSearch_some h
  constructor
  · intro hnil
    have h0 := gain_zero_of_empty_side hlen hy (Or.inl (hL ▸ hnil))
    rw [← hgain] at h0
    rw [h0] at hgt
    exact absurd hgt (not_lt.mpr (le_of_lt eps_pos))
  · intro hnil
    have h0 := gain_zero_of_empty_side hlen hy (Or.inr (hR ▸ hnil))
    rw [← hgain] at h0
    rw [h0] at hgt
    exact absurd hgt (not_lt.mpr (le_of_lt eps_pos))

theorem buildCARTGo_invariant :
    ∀ (rem : ℕ) (X : List (List ℚ)) (y : List ℚ) (depth minLeaf : ℕ),
      X.length = y.length → y ≠ [] →
      LeafMeans (buildCARTGo rem X y depth minLeaf) (X.zip y) ∧
      WellBuilt minLeaf (buildCARTGo rem X y depth minLeaf) (X.zip y) depth := by
  intro rem
  induction rem with
  | zero =>
    intro X y depth minLeaf hlen hy
    exact leaf_invariant hlen hy
  | succ rem ih =>
    intro X y depth minLeaf hlen hy
    by_cases hle : y.length ≤ minLeaf
    · simpa only [buildCARTGo, if_pos hle] using leaf_invariant hlen hy
    · cases hbss : bestSplitSearch X y minLeaf with
      | none =>
        simpa only [buildCARTGo, if_neg hle, hbss] using leaf_invariant hlen hy
      | some b =>
        by_cases hge : b.gain ≤ eps
        · simpa only [buildCARTGo, if_neg hle, hbss, if_pos hge] using
            leaf_invariant hlen hy
        · simp only [buildCARTGo, if_neg hle, hbss, if_neg hge]
          obtain ⟨hfeat, hthr, hvalid, hgain, hL, hR, hpos, hmax, hlex⟩ :=
            bestSplitSearch_some hbss
          obtain ⟨hLne, hRne⟩ :=
            partition_nonempty hlen hy hbss (not_le.mp hge)
          have hLlen : (b.L.map Prod.fst).length = (b.L.map Prod.snd).length := by
            simp
          have hRlen : (b.R.map Prod.fst).length = (b.R.map Prod.snd).length := by
            simp
          have hLy : b.L.map Prod.snd ≠ [] := by
            intro hc
            exact hLne (by simpa using congrArg List.length hc)
          have hRy : b.R.map Prod.snd ≠ [] := by
            intro hc
            exact hRne (by simpa using congrArg List.length hc)
          obtain ⟨ihL1, ihL2⟩ := ih (b.L.map Prod.fst) (b.L.map Prod.snd)
            (depth + 1) minLeaf hLlen hLy
          obtain ⟨ihR1, ihR2⟩ := ih (b.R.map Prod.fst) (b.R.map Prod.snd)
            (depth + 1) minLeaf hRlen hRy
          rw [zip_map_fst_snd] at ihL1 ihL2 ihR1 ihR2
          constructor
          · refine LeafMeans.split _ _ _ _ _ _ _ ?_ ?_
            · rw [← hL]
              exact ihL1
            · rw [← hR]
              exact ihR1
          · have hlen2 : y.length = (X.zip y).length := (length_zip_eq hlen).symm
            rw [hlen2]
            refine WellBuilt.split _ _ _ _ _ _ hvalid.1 hvalid.2 ?_ ?_
            · rw [← hL]
              exact ihL2
            · rw [← hR]
              exact ihR2

theorem buildCART_invariant (X : List (List ℚ)) (y : List ℚ)
    (depth maxDepth minLeaf : ℕ) (hlen : X.length = y.length) (hy : y ≠ []) :
    LeafMeans (buildCART X y depth maxDepth minLeaf) (X.zip y) ∧
    WellBuilt minLeaf (buildCART X y depth maxDepth minLeaf) (X.zip y) depth :=
  buildCARTGo_invariant (maxDepth - depth) X y depth minLeaf hlen hy

/-! ### Constant labels -/

theorem stepCand_const_none {X : List (List ℚ)} {y : List ℚ} {c : ℚ}
    (hc : ∀ v ∈ y, v = c) (minLeaf f : ℕ) (thr : ℚ) :
    stepCand (X.zip y) (y.length : ℚ) (variance y) minLeaf f none thr = none := by
  by_cases hv : validAt (X.zip y) minLeaf f thr
  · apply stepCand_valid_le hv
    have hpv : variance y = 0 := variance_of_const hc
    have hvL : variance ((leftOf (X.zip y) f thr).map Prod.snd) = 0 := by
      apply variance_of_const
      intro v hvm
      rcases List.mem_map.mp hvm with ⟨p, hp, rfl⟩
      have hpz : p ∈ X.zip y := List.mem_of_mem_filter hp
      exact hc p.2 (List.mem_zip hpz).2
    have hvR : variance ((rightOf (X.zip y) f thr).map Prod.snd) = 0 := by
      apply variance_of_const
      intro v hvm
      rcases List.mem_map.mp hvm with ⟨p, hp, rfl⟩
      have hpz : p ∈ X.zip y := List.mem_of_mem_filter hp
      exact hc p.2 (List.mem_zip hpz).2
    unfold gainOf
    rw [hpv, hvL, hvR]
    simp [gv]
  · exact stepCand_invalid hv

theorem bestSplitSearch_const {X : List (List ℚ)} {y : List ℚ} {c : ℚ}
    (hc : ∀ v ∈ y, v = c) (minLeaf : ℕ) :
    bestSplitSearch X y minLeaf = none := by
  rw [bestSplitSearch_def]
  have hstep : ∀ (f : ℕ) (cs : List ℚ),
      cs.foldl (stepCand (X.zip y) (y.length : ℚ) (variance y) minLeaf f) none =
        none := by
    intro f cs
    induction cs with
    | nil => rfl
    | cons thr cs ih =>
      rw [List.foldl_cons, stepCand_const_none hc, ih]
  have hfold : ∀ fs : List ℕ,
      fs.foldl (fun a f => (candidates X f).foldl
        (stepCand (X.zip y) (y.length : ℚ) (variance y) minLeaf f) a) none =
        none := by
    intro fs
    induction fs with
    | nil => rfl
    | cons f fs ih =>
      rw [List.foldl_cons, hstep f, ih]
  exact hfold _

theorem buildCARTGo_const {X : List (List ℚ)} {y : List ℚ} {c : ℚ}
    {depth minLeaf : ℕ} (hc : ∀ v ∈ y, v = c) (hy : y ≠ []) (rem : ℕ) :
    buildCARTGo rem X y depth minLeaf = CartNode.leaf c y.length depth := by
  cases rem with
  | zero => simp [buildCARTGo, mean_of_const hy hc]
  | succ rem =>
    by_cases hle : y.length ≤ minLeaf
    · simp [buildCARTGo, hle, mean_of_const hy hc]
    · simp [buildCARTGo, hle, bestSplitSearch_const hc, mean_of_const hy hc]

theorem buildCART_split_inv {X : List (List ℚ)} {y : List ℚ}
    {depth maxDepth minLeaf f : ℕ} {thr : ℚ} {l r : CartNode} {s d : ℕ}
    (h : buildCART X y depth maxDepth minLeaf = CartNode.split f thr l r s d) :
    ∃ b : Best, bestSplitSearch X y minLeaf = some b ∧
      b.feat = f ∧ b.thr = thr ∧ eps < b.gain := by
  rw [buildCART_eq] at h
  by_cases hstop : y.length ≤ minLeaf ∨ maxDepth ≤ depth
  · rw [if_pos hstop] at h
    exact absurd h (by simp)
  · rw [if_neg hstop] at h
    cases hbss : bestSplitSearch X y minLeaf with
    | none =>
      rw [hbss] at h
      exact absurd h (by simp)
    | some b =>
      rw [hbss] at h
      simp only [] at h
      by_cases hge : b.gain ≤ eps
      · rw [if_pos hge] at h
        exact absurd h (by simp)
      · rw [if_neg hge] at h
        injection h with h1 h2 h3 h4 h5 h6
        exact ⟨b, rfl, h1, h2, not_le.mp hge⟩

/-! ### Claim theorems -/

/-- C4 (confirmed): for every training subset and depth, `buildCART`
produces a leaf exactly when the row count is at most `minLeaf`, or the
depth reached `maxDepth`, or the best candidate gain is at most the small
positive epsilon `1e-12`; the depth/minLeaf check runs before any split
search (the first conjunct's equation holds regardless of the split
search's outcome); and every leaf of the tree holds the exact arithmetic
mean of the labels of the training rows that reach it (`LeafMeans`,
re-partitioning the training set along the path from the root). -/
theorem C4_stopping_rule_and_leaf_means (X : List (List ℚ)) (y : List ℚ)
    (depth maxDepth minLeaf : ℕ) (hlen : X.length = y.length) (hy : y ≠ []) :
    (y.length ≤ minLeaf ∨ maxDepth ≤ depth →
      buildCART X y depth maxDepth minLeaf =
        CartNode.leaf (mean y) y.length depth) ∧
    ((buildCART X y depth maxDepth minLeaf).isLeaf = true ↔
      y.length ≤ minLeaf ∨ maxDepth ≤ depth ∨
        gv (bestSplitSearch X y minLeaf) ≤ eps) ∧
    LeafMeans (buildCART X y depth maxDepth minLeaf) (X.zip y) := by
  refine ⟨?_, ?_, (buildCART_invariant X y depth maxDepth minLeaf hlen hy).1⟩
  · intro h
    rw [buildCART_eq, if_pos h]
  · by_cases hstop : y.length ≤ minLeaf ∨ maxDepth ≤ depth
    · rw [buildCART_eq, if_pos hstop]
      simp only [CartNode.isLeaf, true_iff]
      tauto
    · rw [buildCART_eq, if_neg hstop]
      push_neg at hstop
      cases hbss : bestSplitSearch X y minLeaf with
      | none =>
        simp only [CartNode.isLeaf, true_iff]
        refine Or.inr (Or.inr ?_)
        exact le_of_lt (by simpa [gv] using eps_pos)
      | some b =>
        simp only []
        by_cases hge : b.gain ≤ eps
        · rw [if_pos hge]
          simp only [CartNode.isLeaf, true_iff]
          exact Or.inr (Or.inr hge)
        · rw [if_neg hge]
          refine iff_of_false (by simp [CartNode.isLeaf]) ?_
          rintro (h1 | h2 | h3)
          · omega
          · omega
          · exact hge (by simpa [gv] using h3)

/-- Closed instance of `C4_stopping_rule_and_leaf_means` at the concrete
training set `(X3, y3)`. -/
theorem C4_witness :
    ((y3.length ≤ 8 ∨ 4 ≤ 0 →
      buildCART X3 y3 0 4 8 = CartNode.leaf (mean y3) y3.length 0) ∧
    ((buildCART X3 y3 0 4 8).isLeaf = true ↔
      y3.length ≤ 8 ∨ 4 ≤ 0 ∨ gv (bestSplitSearch X3 y3 8) ≤ eps) ∧
    LeafMeans (buildCART X3 y3 0 4 8) (X3.zip y3)) :=
  C4_stopping_rule_and_leaf_means X3 y3 0 4 8 (by decide) (by decide)

/-- C10 (confirmed): every tree `buildCART` produces is `WellBuilt`: each
split's left/right subtrees are built from exactly the `<=`/`>` partitions
of the node's rows, both partitions have at least `minLeaf` rows, every
node's `size` field is the number of rows that reached it, and each
child's `depth` field is its parent's plus one. -/
theorem C10_split_invariants (X : List (List ℚ)) (y : List ℚ)
    (depth maxDepth minLeaf : ℕ) (hlen : X.length = y.length) (hy : y ≠ []) :
    WellBuilt minLeaf (buildCART X y depth maxDepth minLeaf) (X.zip y) depth :=
  (buildCART_invariant X y depth maxDepth minLeaf hlen hy).2

/-- Closed instance of `C10_split_invariants` at `(X3, y3)`. -/
theorem C10_witness : WellBuilt 8 (buildCART X3 y3 0 4 8) (X3.zip y3) 0 :=
  C10_split_invariants X3 y3 0 4 8 (by decide) (by decide)

/-- C5 (confirmed): whenever the split search selects a candidate, the
kept partitions are exactly the rows with feature value `<=` threshold
(left) and `>` threshold (right), both partitions have at least `minLeaf`
rows (undersized candidates are never selected), and the kept gain equals
`parentVariance - (|L|/n)·variance(L labels) - (|R|/n)·variance(R labels)`
where `variance` is the population variance and `variance [] = 0`. -/
theorem C5_partition_minleaf_gain (X : List (List ℚ)) (y : List ℚ)
    (minLeaf : ℕ) (b : Best) (h : bestSplitSearch X y minLeaf = some b) :
    b.L = leftOf (X.zip y) b.feat b.thr ∧
    b.R = rightOf (X.zip y) b.feat b.thr ∧
    minLeaf ≤ b.L.length ∧ minLeaf ≤ b.R.length ∧
    b.gain = variance y
      - ((b.L.length : ℚ) / (y.length : ℚ)) * variance (b.L.map Prod.snd)
      - ((b.R.length : ℚ) / (y.length : ℚ)) * variance (b.R.map Prod.snd) ∧
    variance ([] : List ℚ) = 0 := by
  obtain ⟨hfeat, hthr, hvalid, hgain, hL, hR, hpos, hmax, hlex⟩ :=
    bestSplitSearch_some h
  refine ⟨hL, hR, ?_, ?_, ?_, variance_nil⟩
  · rw [hL]
    exact hvalid.1
  · rw [hR]
    exact hvalid.2
  · rw [hgain]
    unfold gainOf
    rw [← hL, ← hR]

set_option maxRecDepth 1000000 in
/-- Closed instance of `C5_partition_minleaf_gain` at `(X3, y3)`, whose
split search selects `b3` (feature 0, threshold 0, gain 25). -/
theorem C5_witness :
    b3.L = leftOf (X3.zip y3) b3.feat b3.thr ∧
    b3.R = rightOf (X3.zip y3) b3.feat b3.thr ∧
    8 ≤ b3.L.length ∧ 8 ≤ b3.R.length ∧
    b3.gain = variance y3
      - ((b3.L.length : ℚ) / (y3.length : ℚ)) * variance (b3.L.map Prod.snd)
      - ((b3.R.length : ℚ) / (y3.length : ℚ)) * variance (b3.R.map Prod.snd) ∧
    variance ([] : List ℚ) = 0 :=
  C5_partition_minleaf_gain X3 y3 8 b3
    (by with_unfolding_all decide)

/-- C8 (confirmed): when every label equals the same constant `c`,
training produces a single leaf whose value is `c` — for every `maxDepth`
and `minLeaf`, with no error — and prediction on any vector (of any
width) returns `c`. -/
theorem C8_constant_labels_single_leaf (X : List (List ℚ)) (y : List ℚ)
    (c : ℚ) (depth maxDepth minLeaf : ℕ)
    (hy : y ≠ []) (hc : ∀ v ∈ y, v = c) :
    buildCART X y depth maxDepth minLeaf = CartNode.leaf c y.length depth ∧
    (fitCART X y).root = CartNode.leaf c y.length 0 ∧
    ∀ x : List ℚ, predictTree (fitCART X y).root x = c := by
  have hb : ∀ depth' maxDepth' minLeaf' : ℕ,
      buildCART X y depth' maxDepth' minLeaf' =
        CartNode.leaf c y.length depth' := by
    intro d m l
    unfold buildCART
    exact buildCARTGo_const hc hy _
  refine ⟨hb depth maxDepth minLeaf, hb 0 4 8, ?_⟩
  intro x
  show predictTree (buildCART X y 0 4 8) x = c
  rw [hb 0 4 8]
  rfl

/-- Closed instance of `C8_constant_labels_single_leaf`: three rows with
constant label 5 train to the single leaf `5` and predict `5`. -/
theorem C8_witness :
    buildCART [[1], [2], [3]] [5, 5, 5] 0 4 1 = CartNode.leaf 5 3 0 ∧
    (fitCART [[1], [2], [3]] [5, 5, 5]).root = CartNode.leaf 5 3 0 ∧
    ∀ x : List ℚ, predictTree (fitCART [[1], [2], [3]] [5, 5, 5]).root x = 5 :=
  C8_constant_labels_single_leaf [[1], [2], [3]] [5, 5, 5] 5 0 4 1
    (by decide) (by decide)

/-- C9 (confirmed): the split a trained node actually carries is a valid
candidate of maximal gain, and among all valid candidates sharing that
maximal gain it has the lowest feature index and, within that feature,
the lowest threshold value; since the trainer is a pure function, training
the same examples twice yields the identical tree. -/
theorem C9_tie_break_lowest_feature_threshold (X : List (List ℚ))
    (y : List ℚ) (depth maxDepth minLeaf f : ℕ) (thr : ℚ) (l r : CartNode)
    (s d : ℕ)
    (h : buildCART X y depth maxDepth minLeaf = CartNode.split f thr l r s d) :
    f < nFeatOf X ∧ thr ∈ candidates X f ∧
    validAt (X.zip y) minLeaf f thr ∧
    (∀ f' : ℕ, f' < nFeatOf X → ∀ thr' ∈ candidates X f',
      validAt (X.zip y) minLeaf f' thr' →
      gainOf (X.zip y) (y.length : ℚ) (variance y) f' thr' ≤
        gainOf (X.zip y) (y.length : ℚ) (variance y) f thr) ∧
    (∀ f' : ℕ, f' < nFeatOf X → ∀ thr' ∈ candidates X f',
      validAt (X.zip y) minLeaf f' thr' →
      gainOf (X.zip y) (y.length : ℚ) (variance y) f' thr' =
        gainOf (X.zip y) (y.length : ℚ) (variance y) f thr →
      f < f' ∨ (f = f' ∧ thr ≤ thr')) := by
  obtain ⟨b, hbss, hbf, hbt, hgt⟩ := buildCART_split_inv h
  obtain ⟨hfeat, hthr, hvalid, hgain, hL, hR, hpos, hmax, hlex⟩ :=
    bestSplitSearch_some hbss
  subst hbf
  subst hbt
  rw [← hgain]
  refine ⟨hfeat, hthr, hvalid, hmax, ?_⟩
  intro f' hf' thr' hthr' hv' hg'
  exact hlex f' hf' thr' hthr' hv' hg'

set_option maxRecDepth 1000000 in
/-- Closed instance of `C9_tie_break_lowest_feature_threshold` at
`(X3, y3)`, whose root split is feature 0 at threshold 0. -/
theorem C9_witness :
    0 < nFeatOf X3 ∧ (0 : ℚ) ∈ candidates X3 0 ∧
    validAt (X3.zip y3) 8 0 0 ∧
    (∀ f' : ℕ, f' < nFeatOf X3 → ∀ thr' ∈ candidates X3 f',
      validAt (X3.zip y3) 8 f' thr' →
      gainOf (X3.zip y3) (y3.length : ℚ) (variance y3) f' thr' ≤
        gainOf (X3.zip y3) (y3.length : ℚ) (variance y3) 0 0) ∧
    (∀ f' : ℕ, f' < nFeatOf X3 → ∀ thr' ∈ candidates X3 f',
      validAt (X3.zip y3) 8 f' thr' →
      gainOf (X3.zip y3) (y3.length : ℚ) (variance y3) f' thr' =
        gainOf (X3.zip y3) (y3.length : ℚ) (variance y3) 0 0 →
      0 < f' ∨ (0 = f' ∧ (0 : ℚ) ≤ thr')) :=
  C9_tie_break_lowest_feature_threshold X3 y3 0 4 8 0 0
    (CartNode.leaf 0 10 1) (CartNode.leaf 10 10 1) 20 0
    (by with_unfolding_all decide)

/-- C7 (confirmed): with data and a target selected, `train` on fewer
than 20 assembled examples refuses (status message, prior model kept
untouched), and on 20 or more examples replaces the model with a CART fit
on the assembled examples. -/
theorem C7_orchestrator_floor (dp : DateParts) (df : DataFrame)
    (target : String) (st : OrchState) :
    ((XyPairs dp df target).length < 20 →
      (train dp (some df) (some target) st).model = st.model ∧
      (train dp (some df) (some target) st).status =
        "Not enough rows to train (need >= 20 after cleaning).") ∧
    (20 ≤ (XyPairs dp df target).length →
      (train dp (some df) (some target) st).model =
        some (fitCART ((XyPairs dp df target).map Prod.fst)
          ((XyPairs dp df target).map Prod.snd))) := by
  constructor
  · intro h
    constructor <;> simp [train, if_pos h]
  · intro h
    simp [train, if_neg (Nat.not_lt.mpr h)]

set_option maxRecDepth 1000000 in
/-- Closed instance of `C7_orchestrator_floor`: `df19` assembles exactly
19 examples (training refused, the prior model of `st0` untouched) and
`df20` exactly 20 (a model is produced). -/
theorem C7_witness :
    ((train dp0 (some df19) (some "a") st0).model = st0.model ∧
      (train dp0 (some df19) (some "a") st0).status =
        "Not enough rows to train (need >= 20 after cleaning).") ∧
    (train dp0 (some df20) (some "a") st0).model =
      some (fitCART ((XyPairs dp0 df20 "a").map Prod.fst)
        ((XyPairs dp0 df20 "a").map Prod.snd)) :=
  ⟨(C7_orchestrator_floor dp0 df19 "a" st0).1 (by with_unfolding_all decide),
   (C7_orchestrator_floor dp0 df20 "a" st0).2 (by with_unfolding_all decide)⟩

/-- C3 counterexample: the model fitted on `(X3, y3)` was trained on
width-1 vectors, yet `predictTree` on the empty vector (width 0) signals
no error — it traverses the tree and returns the number 10. -/
theorem C3_counterexample_wrong_width_returns_value :
    (fitCART X3 y3).nFeatures = 1 ∧
    ([] : List ℚ).length ≠ (fitCART X3 y3).nFeatures ∧
    predictTree (fitCART X3 y3).root [] = 10 := by
  refine ⟨?_, ?_, ?_⟩
  · with_unfolding_all decide
  · with_unfolding_all decide
  · set_option maxRecDepth 1000000 in with_unfolding_all decide

/-- C3 (corrected, amended part): `predictTree` performs no width check
and never signals an error: on every tree and every vector it returns the
value of one of the tree's leaves, and at a split whose feature index is
out of range for the vector the `<=` comparison is false and traversal
descends right. -/
theorem C3_amended_no_width_check :
    (∀ (t : CartNode) (x : List ℚ), predictTree t x ∈ leafValues t) ∧
    (∀ (x : List ℚ) (f : ℕ) (thr : ℚ) (l r : CartNode) (s d : ℕ),
      x.length ≤ f →
      predictTree (CartNode.split f thr l r s d) x = predictTree r x) := by
  constructor
  · intro t x
    induction t generalizing x with
    | leaf v s d => simp [predictTree, leafValues]
    | split f thr l r s d ihl ihr =>
      simp only [predictTree, leafValues]
      by_cases hsp : splitLE f thr x
      · rw [if_pos hsp]
        exact List.mem_append_left _ (ihl x)
      · rw [if_neg hsp]
        exact List.mem_append_right _ (ihr x)
  · intro x f thr l r s d hlen
    have hs : splitLE f thr x = false := by
      unfold splitLE
      rw [List.get?_eq_none.mpr hlen]
    simp [predictTree, hs]

/-- Closed instance of `C3_amended_no_width_check`: a width-1 vector at a
split on feature 1 (out of range) descends right. -/
theorem C3_witness :
    predictTree
      (CartNode.split 1 0 (CartNode.leaf 1 1 1) (CartNode.leaf 2 1 1) 2 0)
      [5] = predictTree (CartNode.leaf 2 1 1) [5] :=
  C3_amended_no_width_check.2 [5] 1 0 (CartNode.leaf 1 1 1)
    (CartNode.leaf 2 1 1) 2 0 (by decide)

set_option maxRecDepth 1000000 in
/-- C2 counterexample: on `X2` (ten rows `[0]`, one row `[1]`) the code's
candidate list for feature 0 is nine copies of `0` — computed from the
sorted values with multiplicity, with duplicates re-evaluated — while the
spec's distinct-value quantiles are `{0, 1}`: the value `1` is a
spec-candidate the code never evaluates. -/
theorem C2_counterexample_multiplicity :
    candidates X2 0 = [0, 0, 0, 0, 0, 0, 0, 0, 0] ∧
    candidatesSpec X2 0 = [0, 1] ∧
    (1 : ℚ) ∈ candidatesSpec X2 0 ∧ ¬ (1 : ℚ) ∈ candidates X2 0 := by
  refine ⟨?_, ?_, ?_, ?_⟩ <;> with_unfolding_all decide

/-- C2 (corrected, amended part): for every node and feature, the
candidate thresholds are exactly the values at positions
`⌊q·n/10⌋` (`q = 1..9`) of the feature's ascending-sorted node values
*with multiplicity*; there are at most 9 of them and the list is
ascending (duplicates may appear and each occurrence is evaluated). -/
theorem C2_amended_quantile_candidates (X : List (List ℚ)) (f : ℕ) :
    (candidates X f).length ≤ 9 ∧
    (candidates X f).Sorted (· ≤ ·) ∧
    ∀ c : ℚ, c ∈ candidates X f ↔
      ∃ q : ℕ, 1 ≤ q ∧ q ≤ 9 ∧
        (sortedVals X f).get? (q * (sortedVals X f).length / 10) = some c := by
  refine ⟨?_, candidates_sorted X f, ?_⟩
  · unfold candidates
    split
    · simp
    · have h9 := List.length_filterMap_le
        (fun q => (sortedVals X f).get? (q * (sortedVals X f).length / 10))
        (List.range' 1 9)
      simpa [List.length_range'] using h9
  · intro c
    unfold candidates
    split
    · rename_i hemp
      have hsv : sortedVals X f = [] := by
        unfold sortedVals
        rw [List.isEmpty_iff.mp hemp]
        rfl
      constructor
      · intro h
        exact absurd h (List.not_mem_nil c)
      · rintro ⟨q, _, _, hq⟩
        rw [hsv] at hq
        simp at hq
    · rw [List.mem_filterMap]
      constructor
      · rintro ⟨q, hq, hget⟩
        rcases List.mem_range'.mp hq with ⟨i, hi, rfl⟩
        exact ⟨1 + 1 * i, by omega, by omega, hget⟩
      · rintro ⟨q, h1, h9, hget⟩
        exact ⟨q, List.mem_range'.mpr ⟨q - 1, by omega, by omega⟩, hget⟩

set_option maxRecDepth 1000000 in
/-- C6 counterexample: `dfC6` has seven rows, one of which (position 2)
has an absent timestamp.  The code assembles over the raw positions
`t = 3..5` of the unfiltered rows (labels `[5, 6, 7]`), while the
spec's filtered/sorted sequence has only six rows and yields labels
`[6, 7]`. -/
theorem C6_counterexample_raw_row_count :
    (XyPairs dp0 dfC6 "a").map Prod.snd = [5, 6, 7] ∧
    (XySpec dp0 dfC6 "a").map Prod.snd = [6, 7] ∧
    XyPairs dp0 dfC6 "a" ≠ XySpec dp0 dfC6 "a" := by
  refine ⟨?_, ?_, ?_⟩ <;> with_unfolding_all decide

/-- C6 (corrected, amended part): a pair is emitted exactly when some row
position `t` in `[maxLag, N-2]` — with `N` the *raw* length of `df.rows`,
no filtering or sorting — has every feature slot finite and a finite
label `target` value at `t + 1`. -/
theorem C6_amended_emission_window (dp : DateParts) (df : DataFrame)
    (target : String) (p : List ℚ × ℚ) :
    p ∈ XyPairs dp df target ↔
      ∃ t : ℕ, maxLag ≤ t ∧ t + 2 ≤ df.rows.length ∧
        (makeXAt dp df target (t : ℤ)).all Option.isSome = true ∧
        getNum df ((t : ℤ) + 1) target = some p.2 ∧
        p.1 = (makeXAt dp df target (t : ℤ)).reduceOption := by
  unfold XyPairs
  rw [List.mem_filterMap]
  constructor
  · rintro ⟨t, htmem, hassem⟩
    rcases List.mem_range'.mp htmem with ⟨i, hi, rfl⟩
    unfold assembleAt at hassem
    by_cases hall :
        (makeXAt dp df target ((maxLag + 1 * i : ℕ) : ℤ)).all Option.isSome
    · rw [if_pos hall] at hassem
      cases hget : getNum df (((maxLag + 1 * i : ℕ) : ℤ) + 1) target with
      | none =>
        rw [hget] at hassem
        exact absurd hassem (by simp)
      | some lab =>
        rw [hget] at hassem
        simp only [] at hassem
        injection hassem with hp
        subst hp
        exact ⟨maxLag + 1 * i, by omega, by omega, hall, hget, rfl⟩
    · rw [if_neg hall] at hassem
      exact absurd hassem (by simp)
  · rintro ⟨t, h1, h2, h3, h4, h5⟩
    refine ⟨t, List.mem_range'.mpr ⟨t - maxLag, by omega, by omega⟩, ?_⟩
    unfold assembleAt
    rw [if_pos h3, h4]
    obtain ⟨p1, p2⟩ := p
    simp only [] at h5
    simp only []
    rw [h5]

theorem get?_append_offset {α : Type} (l1 l2 : List α) (k : ℕ) :
    (l1 ++ l2).get? (l1.length + k) = l2.get? k := by
  rw [List.get?_append_right (Nat.le_add_right _ _)]
  congr 1
  omega

theorem get?_block {α : Type} (cur A1 A2 A3 cyc : List α) (c1 c2 c3 : α)
    (e : ℕ) (he : cur.length = e) (h1 : A1.length = e) (h2 : A2.length = e)
    (h3 : A3.length = e) :
    ((cur ++ ((c1 :: A1) ++ ((c2 :: A2) ++ ((c3 :: A3) ++ [])))) ++ cyc).get? e =
      some c1 ∧
    ((cur ++ ((c1 :: A1) ++ ((c2 :: A2) ++ ((c3 :: A3) ++ [])))) ++ cyc).get?
      (e + (1 + e)) = some c2 ∧
    ((cur ++ ((c1 :: A1) ++ ((c2 :: A2) ++ ((c3 :: A3) ++ [])))) ++ cyc).get?
      (e + 2 * (1 + e)) = some c3 := by
  have hlen : (cur ++ ((c1 :: A1) ++ ((c2 :: A2) ++ ((c3 :: A3) ++ [])))).length =
      4 * e + 3 := by
    simp [he, h1, h2, h3]
    omega
  refine ⟨?_, ?_, ?_⟩
  · rw [List.get?_append (by omega)]
    rw [show e = cur.length + 0 from by omega]
    rw [get?_append_offset]
    simp
  · rw [List.get?_append (by omega)]
    rw [show e + (1 + e) = cur.length + (1 + e) from by omega]
    rw [get?_append_offset]
    rw [show 1 + e = (c1 :: A1).length + 0 from by simp [h1]; omega]
    rw [get?_append_offset]
    simp
  · rw [List.get?_append (by omega)]
    rw [show e + 2 * (1 + e) = cur.length + (2 * (1 + e)) from by omega]
    rw [get?_append_offset]
    rw [show 2 * (1 + e) = (c1 :: A1).length + (1 + e) from by simp [h1]; omega]
    rw [get?_append_offset]
    rw [show 1 + e = (c2 :: A2).length + 0 from by simp [h2]; omega]
    rw [get?_append_offset]
    simp

theorem makeXAt_flat (dp : DateParts) (df : DataFrame) (target : String)
    (t : ℤ) :
    makeXAt dp df target t =
      (exoCols df target).map (fun s => getNum df t s) ++
        ((getNum df (t - 1) target ::
            (exoCols df target).map (fun s => getNum df (t - 1) s)) ++
          ((getNum df (t - 2) target ::
              (exoCols df target).map (fun s => getNum df (t - 2) s)) ++
            ((getNum df (t - 3) target ::
                (exoCols df target).map (fun s => getNum df (t - 3) s)) ++
              []))) ++ cycSlots dp df t := by
  simp only [makeXAt, LAGS, List.flatMap_cons, List.flatMap_nil]
  norm_num

set_option maxRecDepth 1000000 in
/-- C1 counterexample: `dfC1` has six fully-populated rows whose
timestamps are strictly descending.  The claimed filtered/sorted assembly
(`XySpec`, written from the spec's words) yields the labels `[2, 1]`,
while the code's `Xy` assembler works on the raw row order and yields
`[5, 6]`: lag features and labels are not defined by position in the
sorted-by-timestamp sequence. -/
theorem C1_counterexample_unsorted_rows :
    (XyPairs dp0 dfC1 "a").map Prod.snd = [5, 6] ∧
    (XySpec dp0 dfC1 "a").map Prod.snd = [2, 1] ∧
    XyPairs dp0 dfC1 "a" ≠ XySpec dp0 dfC1 "a" := by
  refine ⟨?_, ?_, ?_⟩ <;> with_unfolding_all decide

/-- C1 (corrected, amended part): the `Xy` assembler applies no timestamp
filtering or sorting; its lag features and next-step label are defined
purely by position in the original `df.rows` sequence: for every row
position `t`, the slot at index `|exo| + (l-1)·(1+|exo|)` holds the
target's value at raw position `t - l` (for each lag `l ∈ {1,2,3}`), and
an emitted example's label is the target's value at raw position `t + 1`. -/
theorem C1_amended_positional_assembly (dp : DateParts) (df : DataFrame)
    (target : String) :
    (∀ t : ℤ,
      (makeXAt dp df target t).get? (exoCols df target).length =
        some (getNum df (t - 1) target) ∧
      (makeXAt dp df target t).get?
        ((exoCols df target).length + (1 + (exoCols df target).length)) =
        some (getNum df (t - 2) target) ∧
      (makeXAt dp df target t).get?
        ((exoCols df target).length + 2 * (1 + (exoCols df target).length)) =
        some (getNum df (t - 3) target)) ∧
    (∀ (t : ℕ) (p : List ℚ × ℚ), assembleAt dp df target t = some p →
      getNum df ((t : ℤ) + 1) target = some p.2) := by
  constructor
  · intro t
    rw [makeXAt_flat]
    exact get?_block _ _ _ _ _ _ _ _ _ (by simp) (by simp) (by simp) (by simp)
  · intro t p hassem
    unfold assembleAt at hassem
    by_cases hall : (makeXAt dp df target (t : ℤ)).all Option.isSome
    · rw [if_pos hall] at hassem
      cases hget : getNum df ((t : ℤ) + 1) target with
      | none =>
        rw [hget] at hassem
        exact absurd hassem (by simp)
      | some lab =>
        rw [hget] at hassem
        simp only [] at hassem
        injection hassem with hp
        subst hp
        rfl
    · rw [if_neg hall] at hassem
      exact absurd hassem (by simp)

set_option maxRecDepth 1000000 in
/-- Closed instance of `C1_amended_positional_assembly` at `dfC1`,
position `t = 3` (first lag slot; label from raw position 4). -/
theorem C1_witness :
    (makeXAt dp0 dfC1 "a" 3).get? (exoCols dfC1 "a").length =
      some (getNum dfC1 (3 - 1) "a") ∧
    getNum dfC1 (((3 : ℕ) : ℤ) + 1) "a" = some 5 :=
  ⟨((C1_amended_positional_assembly dp0 dfC1 "a").1 3).1,
   (C1_amended_positional_assembly dp0 dfC1 "a").2 3 ([3, 2, 1, 0, 0, 0, 0], 5)
     (by with_unfolding_all decide)⟩

end ClientSideML
